import Mathlib

/-!
Shallow embedding of the segment pipeline of `src/app.py` (a Flask TTS
service): tag parser, content-addressed cache with SQLite-style index,
sequential synthesis-and-merge pipeline with progress reporting, and the
multi-block route `tts_all`.  External collaborators (the edge-tts
synthesis provider, the pydub decoder, the filesystem) are modelled as
boolean oracles in an environment record; timestamps are rationals; Python
binary64 floats are modelled as exact rationals with the IEEE-754
nearest-even rounding made explicit (`pyFloat`); audio is modelled as the
list of contributions appended to the merged accumulator.
-/

namespace TTS

/-! ## Segments (the dictionaries produced by `parse_tags_into_segments`) -/

/-- One parsed segment: the tagged dictionaries `{"type": "text"|"voice"|"pause", ...}`
of `app.py`, as a closed union.  The pause duration is the Python float
produced by `float(...)` from a `\d+(\.\d+)?` numeral: the binary64 value
nearest to the numeral, carried as an exact rational. -/
inductive Segment where
  | text (content : String)
  | voice (name : String)
  | pause (duration : ℚ)
deriving DecidableEq, Repr

/-! ## Character-level helpers for the regex scanner -/

/-- `str.strip()` on a character list: drop whitespace from both ends. -/
def trimChars (cs : List Char) : List Char :=
  ((cs.dropWhile Char.isWhitespace).reverse.dropWhile Char.isWhitespace).reverse

/-- Build a `String` back from a character list. -/
def strOf (cs : List Char) : String := String.mk cs

/-- Case-insensitive literal match (the pattern is given lowercase, as in the
`re.I` flag): returns the rest of the input after the literal. -/
def matchCI : List Char → List Char → Option (List Char)
  | [], cs => some cs
  | _ :: _, [] => none
  | p :: ps, c :: cs => if c.toLower = p then matchCI ps cs else none

/-- Value of a digit run, as `int` of the decimal numeral. -/
def digitsToNat (ds : List Char) : ℕ :=
  ds.foldl (fun n c => 10 * n + (c.toNat - '0'.toNat)) 0

/-- The exact rational value of a numeral `<int>.<frac>` matched by the
pause regex.  Python's `float(...)` stores the nearest binary64 value of
this number, modelled by `pyFloat` below. -/
def pauseVal (ds fs : List Char) : ℚ :=
  (digitsToNat ds : ℚ) + (digitsToNat fs : ℚ) / (10 : ℚ) ^ fs.length

/-- Round-half-to-even on a rational: the rounding used both by IEEE-754
binary64 arithmetic and by Python's `round`. -/
def roundHalfEven (q : ℚ) : ℤ :=
  if q - ⌊q⌋ < 1 / 2 then ⌊q⌋
  else if 1 / 2 < q - ⌊q⌋ then ⌊q⌋ + 1
  else if Even ⌊q⌋ then ⌊q⌋ else ⌊q⌋ + 1

/-- The nearest IEEE-754 binary64 value of a rational (ties to even), as an
exact rational: the significand is quantized to 53 bits at the exponent of
the value, clamped at the subnormal threshold `2^(-1022)` (so subnormals are
quantized at `2^(-1074)`).  This models CPython's correctly-rounded
`float("<numeral>")` and the rounding of each float arithmetic operation.
Results at or beyond `2^1024` (where Python produces `inf`) are outside the
model; no claim here involves them. -/
def pyFloat (q : ℚ) : ℚ :=
  if q = 0 then 0
  else
    let a := |q|
    let e : ℤ := max (Int.log 2 a) (-1022)
    let m : ℤ := roundHalfEven (a * (2 : ℚ) ^ (52 - e))
    (if q < 0 then -1 else 1) * ((m : ℚ) * (2 : ℚ) ^ (e - 52))

/-! ## The two regex alternatives of `parse_tags_into_segments`

The source compiles `\[voice\s+([^\]]+)\]\s*:\s*([^\[]*)|\[pause\s*(\d+(?:\.\d+)?)\s*(?:s|sec|seconds)?\]`
with `re.I` and walks `finditer`.  Each alternative is embedded as a
deterministic first-match function with the backtracking of the original
pattern resolved by hand:
* in the voice alternative, `\s+([^\]]+)` matches the span up to the first
  `]` exactly when that span starts with whitespace and has length at least
  two; the code then calls `.strip()` on group 1, so the value kept is the
  trimmed span;
* in the pause alternative, the greedy digit runs are the maximal runs, and
  `(?:s|sec|seconds)?\]` accepts exactly the remainders `]`, `s]`, `sec]`,
  `seconds]` (case-insensitively). -/

/-- Voice alternative: on success returns (stripped group 1, stripped group 2,
rest of input after the match). -/
def matchVoice (cs : List Char) : Option (String × String × List Char) :=
  match matchCI ['[', 'v', 'o', 'i', 'c', 'e'] cs with
  | none => none
  | some r1 =>
    let between := r1.takeWhile (fun c => c ≠ ']')
    match r1.drop between.length with
    | ']' :: r2 =>
      match between with
      | b0 :: _ :: _ =>
        if b0.isWhitespace then
          let r3 := r2.dropWhile Char.isWhitespace
          match r3 with
          | ':' :: r4 =>
            let r5 := r4.dropWhile Char.isWhitespace
            let g2 := r5.takeWhile (fun c => c ≠ '[')
            some (strOf (trimChars between), strOf (trimChars g2), r5.drop g2.length)
          | _ => none
        else none
      | _ => none
    | _ => none

/-- The optional unit suffix and closing bracket `(?:s|sec|seconds)?\]`:
returns the rest after `]` when the remainder is one of the accepted forms. -/
def stripUnit (cs : List Char) : Option (List Char) :=
  match cs with
  | ']' :: r => some r
  | _ =>
    match matchCI ['s', 'e', 'c', 'o', 'n', 'd', 's'] cs with
    | some (']' :: r) => some r
    | _ =>
      match matchCI ['s', 'e', 'c'] cs with
      | some (']' :: r) => some r
      | _ =>
        match matchCI ['s'] cs with
        | some (']' :: r) => some r
        | _ => none

/-- Pause alternative: on success returns (integer digits, fraction digits,
rest of input after the match). -/
def matchPause (cs : List Char) : Option (List Char × List Char × List Char) :=
  match matchCI ['[', 'p', 'a', 'u', 's', 'e'] cs with
  | none => none
  | some r1 =>
    let r2 := r1.dropWhile Char.isWhitespace
    let ds := r2.takeWhile Char.isDigit
    if ds.isEmpty then none
    else
      let r3 := r2.drop ds.length
      let fr :=
        match r3 with
        | '.' :: r3' =>
          let fs := r3'.takeWhile Char.isDigit
          if fs.isEmpty then ([], r3) else (fs, r3'.drop fs.length)
        | _ => (([] : List Char), r3)
      match stripUnit (fr.2.dropWhile Char.isWhitespace) with
      | some r6 => some (ds, fr.1, r6)
      | none => none

/-- The text accumulated between matches, stripped; dropped when empty
(`before = text[last:m.start()].strip(); if before: ...`).  `pending` holds
the accumulated characters in reverse. -/
def pendingSegs (pending : List Char) : List Segment :=
  let t := trimChars pending.reverse
  if t.isEmpty then [] else [Segment.text (strOf t)]

/-- The `finditer` loop: at each position try the voice alternative, then the
pause alternative (the alternation order of the pattern); otherwise the
character is literal text.  `fuel` bounds the recursion; every step consumes
at least one character, so `fuel = input length` suffices. -/
def scanAux : ℕ → List Char → List Char → List Segment
  | _, pending, [] => pendingSegs pending
  | 0, pending, rest => pendingSegs (rest.reverse ++ pending)
  | fuel + 1, pending, c :: rest =>
    match matchVoice (c :: rest) with
    | some (name, inline, r) =>
      pendingSegs pending ++ [Segment.voice name] ++
        (if inline.isEmpty then [] else [Segment.text inline]) ++ scanAux fuel [] r
    | none =>
      match matchPause (c :: rest) with
      | some (ds, fs, r) =>
        pendingSegs pending ++ [Segment.pause (pyFloat (pauseVal ds fs))] ++ scanAux fuel [] r
      | none => scanAux fuel (c :: pending) rest

/-- `parse_tags_into_segments(text, default_voice)` of `app.py`.  The
`default_voice` argument is accepted and ignored by the source parser, which
is voice-agnostic. -/
def parse_tags_into_segments (text : String) (defaultVoice : String) : List Segment :=
  let _ := defaultVoice
  scanAux text.data.length [] text.data

/-! ## Cache store (`cache_key`, the SQLite index, the `.mp3` files) -/

/-- `cache_key(text, voice) = sha1(f"{voice}|{text}").hexdigest()`.  The SHA-1
hex digest is abstracted as the function argument `hash`; the construction of
the hashed preimage `voice ++ "|" ++ text` is the part taken from the source. -/
def cache_key (hash : String → String) (text voice : String) : String :=
  hash (voice ++ "|" ++ text)

/-- One row of the `cache` table: `(hash, voice, text, path, size, mtime)`.
`mtime` (a `time.time()` float) is a rational. -/
structure CacheRow where
  hash : String
  voice : String
  text : String
  path : String
  size : ℕ
  mtime : ℚ
deriving DecidableEq, Repr

/-- The shared cache: the set of keys whose `.mp3` file exists in `CACHE_DIR`
(the backing byte store), and the SQLite index rows. -/
structure CacheState where
  files : List String
  index : List CacheRow
deriving DecidableEq, Repr

/-- `db_touch(hashv)`: `UPDATE cache SET mtime=? WHERE hash=?` — a no-op on
rows whose key is absent. -/
def db_touch (index : List CacheRow) (key : String) (now : ℚ) : List CacheRow :=
  index.map fun r => if r.hash = key then { r with mtime := now } else r

/-- `db_add_cache(hashv, voice, text, path)`: `INSERT OR REPLACE`, recording
the file size and the current time. -/
def db_add_cache (index : List CacheRow) (key voice text path : String)
    (size : ℕ) (now : ℚ) : List CacheRow :=
  if index.any (fun r => r.hash = key) then
    index.map fun r => if r.hash = key then ⟨key, voice, text, path, size, now⟩ else r
  else
    index ++ [⟨key, voice, text, path, size, now⟩]

/-! ## External collaborators -/

/-- The oracles for the external collaborators: the abstract digest, whether
`edge_tts_save(text, voice, path)` succeeds, whether
`AudioSegment.from_file(cached_path)` succeeds on the (immutable) artifact of
a key, and the size `os.path.getsize` reports for a key's file. -/
structure Env where
  hash : String → String
  synthOk : String → String → Bool
  decodeOk : String → Bool
  sizeOf : String → ℕ

/-- One contribution appended to the `merged` accumulator: either the decoded
cached artifact of a key, or a run of silence of the given many milliseconds. -/
inductive Piece where
  | real (key : String)
  | silence (ms : ℤ)
deriving DecidableEq, Repr

/-- Python `int()` on a rational (truncation toward zero), as applied to
the float product `seg["duration"] * 1000`. -/
def pyInt (q : ℚ) : ℤ :=
  if 0 ≤ q then ⌊q⌋ else -⌊-q⌋

/-! ## Synthesis-merge pipeline (`synthesize_segments_to_mp3`) -/

/-- The loop state of `synthesize_segments_to_mp3`: current voice, `done`
counter, the merged contributions so far, the shared cache, and the list of
synthesis-provider invocations made so far (as `(text, voice)` pairs). -/
structure RunState where
  currentVoice : String
  done : ℕ
  merged : List Piece
  cache : CacheState
  calls : List (String × String)
deriving DecidableEq, Repr

/-- Processing of one segment (the body of the `for seg in segments` loop).
A pause appends `int(seg["duration"] * 1000)` milliseconds of silence, the
float product rounded by `pyFloat` before `int()` truncates.  On a synthesis
failure no file and no index row are produced; on a decode failure (hit or
fresh) 500 ms of silence is substituted.  `now` stands for the `time.time()`
values of the run. -/
def stepSeg (env : Env) (now : ℚ) (st : RunState) : Segment → RunState
  | Segment.voice name => { st with currentVoice := name, done := st.done + 1 }
  | Segment.pause d =>
    { st with merged := st.merged ++ [Piece.silence (pyInt (pyFloat (d * 1000)))],
              done := st.done + 1 }
  | Segment.text content =>
    let text := strOf (trimChars content.data)
    if text.isEmpty then { st with done := st.done + 1 }
    else
      let key := cache_key env.hash text st.currentVoice
      if st.cache.files.contains key then
        let cache' : CacheState := { st.cache with index := db_touch st.cache.index key now }
        let piece := if env.decodeOk key then Piece.real key else Piece.silence 500
        { st with cache := cache', merged := st.merged ++ [piece], done := st.done + 1 }
      else if env.synthOk text st.currentVoice then
        let cache' : CacheState :=
          { files := st.cache.files ++ [key],
            index := db_add_cache st.cache.index key st.currentVoice text (key ++ ".mp3")
              (env.sizeOf key) now }
        let piece := if env.decodeOk key then Piece.real key else Piece.silence 500
        { st with cache := cache', merged := st.merged ++ [piece], done := st.done + 1,
                  calls := st.calls ++ [(text, st.currentVoice)] }
      else
        { st with merged := st.merged ++ [Piece.silence 500], done := st.done + 1,
                  calls := st.calls ++ [(text, st.currentVoice)] }

/-- A progress record `{"done": .., "total": .., "status": ..}`. -/
structure ProgressRecord where
  done : ℕ
  total : ℕ
  status : String
deriving DecidableEq, Repr

/-- The status string `f"Segment {done+1}/{total}"`. -/
def segStatus (done total : ℕ) : String :=
  "Segment " ++ toString (done + 1) ++ "/" ++ toString total

/-- The loop of `synthesize_segments_to_mp3`, also collecting the progress
records stored when a `job_id` is supplied (one `update` before each segment). -/
def synthAux (env : Env) (now : ℚ) (total : ℕ) :
    RunState → List Segment → RunState × List ProgressRecord
  | st, [] => (st, [])
  | st, seg :: rest =>
    let rec0 : ProgressRecord := ⟨st.done, total, segStatus st.done total⟩
    let res := synthAux env now total (stepSeg env now st seg) rest
    (res.1, rec0 :: res.2)

/-- Result of one pipeline run: final loop state and, for the `job_id` case,
the sequence of records successively stored in `progress_state[job_id]`. -/
structure SynthResult where
  state : RunState
  trace : List ProgressRecord
deriving DecidableEq, Repr

/-- `synthesize_segments_to_mp3(segments, default_voice, job_id)`: the
`"Starting"` record, the per-segment updates, and the final `"Complete"`
record with `done = total`. -/
def synthesize_segments_to_mp3 (env : Env) (now : ℚ) (segments : List Segment)
    (default_voice : String) (cache : CacheState) : SynthResult :=
  let total := segments.length
  let res := synthAux env now total ⟨default_voice, 0, [], cache, []⟩ segments
  ⟨res.1, ⟨0, total, "Starting"⟩ :: res.2 ++ [⟨total, total, "Complete"⟩]⟩

/-- Plain fold of the loop body over the segments (the state part of
`synthAux`, independent of the progress bookkeeping). -/
def runSegs (env : Env) (now : ℚ) (st : RunState) (segs : List Segment) : RunState :=
  segs.foldl (stepSeg env now) st

/-! ## Multi-block route (`tts_all`) -/

/-- One block of a `/tts-all` request: `{"text": .., "voice": ..}`. -/
structure Block where
  text : String
  voice : String
deriving DecidableEq, Repr

/-- Provenance of a stored progress record: stored by `tts_all` itself
(lines 230, 237, 245 of `app.py`) or by `synthesize_segments_to_mp3` while a
block runs (lines 149, 153, 196). -/
inductive Site where
  | block
  | seg
deriving DecidableEq, Repr

/-- The status string `f"Block {i+1}/{len(blocks)}"`. -/
def blockStatus (i n : ℕ) : String :=
  "Block " ++ toString (i + 1) ++ "/" ++ toString n

/-- The `for i, b in enumerate(blocks)` loop of `tts_all`.  `last` is the
record currently held in `progress_state[job_id]`: the `update(done=i, ...)`
call keeps its `total` field, while the assignments inside the pipeline
replace the whole record.  Returns the final cache, the contributions to the
route-level `merged`, and the tagged record trace. -/
def ttsAux (env : Env) (now : ℚ) (n : ℕ) :
    ℕ → ProgressRecord → CacheState → List Block →
      CacheState × List Piece × List (Site × ProgressRecord)
  | _, _, cache, [] => (cache, [], [])
  | i, last, cache, b :: bs =>
    let segs := parse_tags_into_segments b.text b.voice
    let rec1 : ProgressRecord := ⟨i, last.total, blockStatus i n⟩
    let res := synthesize_segments_to_mp3 env now segs b.voice cache
    let lastAfter : ProgressRecord := ⟨segs.length, segs.length, "Complete"⟩
    let rest := ttsAux env now n (i + 1) lastAfter res.state.cache bs
    (rest.1,
      res.state.merged ++ [Piece.silence 500] ++ rest.2.1,
      (Site.block, rec1) :: res.trace.map (fun r => (Site.seg, r)) ++ rest.2.2)

/-- Result of a `/tts-all` request: the route-level merged contributions (the
decode of each block's exported file is modelled as the block's own
contribution list), the full tagged sequence of records stored under the
job's id, and the final cache. -/
structure TtsAllResult where
  merged : List Piece
  trace : List (Site × ProgressRecord)
  cache : CacheState
deriving DecidableEq, Repr

/-- The `tts_all` route body after validation: the `"Queued"` record, the
per-block loop, and the final `"Complete"` record with `done = len(blocks)`. -/
def tts_all (env : Env) (now : ℚ) (blocks : List Block) (cache : CacheState) :
    TtsAllResult :=
  let n := blocks.length
  let queued : ProgressRecord := ⟨0, n, "Queued"⟩
  let res := ttsAux env now n 0 queued cache blocks
  ⟨res.2.1,
    (Site.block, queued) :: res.2.2 ++ [(Site.block, ⟨n, n, "Complete"⟩)],
    res.1⟩

/-- The `done` values of a stored-record sequence, in storage order. -/
def doneValues (tr : List (Site × ProgressRecord)) : List ℕ :=
  tr.map fun p => p.2.done

/-- The subsequence of records stored by `tts_all` itself (block-level). -/
def blockTrace (tr : List (Site × ProgressRecord)) : List ProgressRecord :=
  (tr.filter fun p => p.1 = Site.block).map fun p => p.2

/-! ## Progress route (`/progress/<job_id>`) -/

/-- Python `round(x, 1)` modelled on rationals. -/
def pyRound1 (q : ℚ) : ℚ :=
  (roundHalfEven (q * 10) : ℚ) / 10

/-- `round(100 * info["done"] / max(1, info["total"]), 1)`. -/
def pctOf (r : ProgressRecord) : ℚ :=
  pyRound1 (100 * (r.done : ℚ) / (max 1 r.total : ℕ))

/-- The two possible responses of the `/progress/<job_id>` route: the 404
`{"error": "no such job"}` body, or the 200 `{"progress": .., "status": ..}`
body. -/
inductive ProgressResponse where
  | notFound
  | ok (progress : ℚ) (status : String)
deriving DecidableEq

/-- The `/progress/<job_id>` route: `progress_state.get(job_id)` (modelled as
the map `st`), 404 when absent, otherwise the percentage and status of the
stored record. -/
def progressRoute (st : String → Option ProgressRecord) (jobId : String) :
    ProgressResponse :=
  match st jobId with
  | none => ProgressResponse.notFound
  | some info => ProgressResponse.ok (pctOf info) info.status

/-! ## Cache eviction (`db_cleanup`) -/

/-- Filesystem oracles for the cleanup pass: whether `os.path.exists(path)`
holds and whether `os.remove(path)` succeeds. -/
structure FsEnv where
  fileExists : String → Bool
  removeOk : String → Bool

/-- Stable insertion by `mtime` (an earlier-listed row precedes later rows of
equal `mtime`, as with Python's stable `list.sort`). -/
def insertByMtime (r : CacheRow) : List CacheRow → List CacheRow
  | [] => [r]
  | x :: xs => if x.mtime < r.mtime then x :: insertByMtime r xs else r :: x :: xs

/-- `rows.sort(key=lambda r: r[3])` — oldest `mtime` first, stable. -/
def sortByMtime (rows : List CacheRow) : List CacheRow :=
  rows.foldr insertByMtime []

/-- Outcome of a cleanup pass: the hashes whose index row was deleted (in
visiting order), the paths actually removed from disk, and the final value of
the running `total_size`. -/
structure CleanupResult where
  deletedRows : List String
  removedPaths : List String
  finalTotal : ℤ
deriving DecidableEq, Repr

/-- The `for hashv, path, size, mtime in rows` loop of `db_cleanup`: an entry
is deleted when it is older than `max_age_hours` or the running total still
exceeds `max_total_mb * 1e6`; `total_size` is decremented only when
`os.path.exists(path)` held and `os.remove(path)` did not raise; the index
row is deleted in every deletion case. -/
def cleanupAux (fs : FsEnv) (now maxAgeHours maxTotalMb : ℚ) :
    ℤ → List CacheRow → CleanupResult
  | total, [] => ⟨[], [], total⟩
  | total, r :: rest =>
    if (now - r.mtime) > maxAgeHours * 3600 ∨ (total : ℚ) > maxTotalMb * 1000000 then
      if fs.fileExists r.path && fs.removeOk r.path then
        let res := cleanupAux fs now maxAgeHours maxTotalMb (total - r.size) rest
        ⟨r.hash :: res.deletedRows, r.path :: res.removedPaths, res.finalTotal⟩
      else
        let res := cleanupAux fs now maxAgeHours maxTotalMb total rest
        ⟨r.hash :: res.deletedRows, res.removedPaths, res.finalTotal⟩
    else
      cleanupAux fs now maxAgeHours maxTotalMb total rest

/-- `db_cleanup(max_age_hours, max_total_mb)`: sum the indexed sizes, sort
oldest-access-first, then run the deletion loop. -/
def db_cleanup (fs : FsEnv) (now maxAgeHours maxTotalMb : ℚ)
    (rows : List CacheRow) : CleanupResult :=
  cleanupAux fs now maxAgeHours maxTotalMb
    ((rows.map fun r => (r.size : ℤ)).sum) (sortByMtime rows)

/-- Modelled from the spec (for comparison with `db_cleanup`): the claimed
eviction policy in which the running total is decremented by every deleted
entry, file removal succeeding or not.  Returns the deleted hashes. -/
def evictSpecAux (now maxAgeSeconds maxTotalBytes : ℚ) :
    ℤ → List CacheRow → List String
  | _, [] => []
  | total, r :: rest =>
    if (now - r.mtime) > maxAgeSeconds ∨ (total : ℚ) > maxTotalBytes then
      r.hash :: evictSpecAux now maxAgeSeconds maxTotalBytes (total - r.size) rest
    else
      evictSpecAux now maxAgeSeconds maxTotalBytes total rest

/-- Modelled from the spec: `evict(maxAgeSeconds, maxTotalBytes)` as the
claim states it. -/
def evictSpec (now maxAgeSeconds maxTotalBytes : ℚ) (rows : List CacheRow) :
    List String :=
  evictSpecAux now maxAgeSeconds maxTotalBytes
    ((rows.map fun r => (r.size : ℤ)).sum) (sortByMtime rows)

/-- The initial loop state of a pipeline run. -/
def initState (voice : String) (cache : CacheState) : RunState :=
  ⟨voice, 0, [], cache, []⟩

/-- An all-succeeding environment with the digest abstracted as the identity
(any collision-free digest gives the same behavior on the concrete inputs
used below). -/
def idEnv : Env :=
  ⟨fun s => s, fun _ _ => true, fun _ => true, fun _ => 0⟩

/-! ## Evaluating the binary64 model

`roundHalfEven` and `pyFloat` are evaluated at concrete points through the
following lemmas: `pyFloat_eval` discharges the exponent search against an
explicit bracket `2^e ≤ q < 2^(e+1)`, and the `roundHalfEven` helpers
discharge the three rounding cases against an explicit floor. -/

/-- `roundHalfEven` at an integer. -/
theorem roundHalfEven_intCast (n : ℤ) : roundHalfEven ((n : ℚ)) = n := by
  unfold roundHalfEven
  rw [Int.floor_intCast]
  rw [if_pos (by norm_num : ((n : ℚ) - (n : ℚ)) < 1 / 2)]

/-- `roundHalfEven` rounds down when the fractional part is below a half. -/
theorem roundHalfEven_eq_floor_of {q : ℚ} {n : ℤ} (hfl : ⌊q⌋ = n)
    (h : q - (n : ℚ) < 1 / 2) : roundHalfEven q = n := by
  unfold roundHalfEven
  rw [hfl, if_pos h]

/-- `roundHalfEven` rounds up when the fractional part is above a half. -/
theorem roundHalfEven_eq_up_of {q : ℚ} {n : ℤ} (hfl : ⌊q⌋ = n)
    (h : 1 / 2 < q - (n : ℚ)) : roundHalfEven q = n + 1 := by
  unfold roundHalfEven
  rw [hfl, if_neg (by linarith), if_pos h]

/-- `roundHalfEven` is nonnegative on nonnegative input. -/
theorem roundHalfEven_nonneg {q : ℚ} (h : 0 ≤ q) : 0 ≤ roundHalfEven q := by
  have hfl : 0 ≤ ⌊q⌋ := Int.floor_nonneg.2 h
  unfold roundHalfEven
  split_ifs <;> omega

/-- Evaluation rule for `pyFloat` on a positive normal-range value: given the
binade bracket `2^e ≤ q < 2^(e+1)` with `e ≥ -1022` and the rounded 53-bit
significand `m`, the nearest double is `m * 2^(e-52)`. -/
theorem pyFloat_eval {q : ℚ} {e m : ℤ} (h0 : 0 < q) (he : (-1022 : ℤ) ≤ e)
    (h1 : (2 : ℚ) ^ e ≤ q) (h2 : q < (2 : ℚ) ^ (e + 1))
    (hm : roundHalfEven (q * (2 : ℚ) ^ ((52 : ℤ) - e)) = m) :
    pyFloat q = (m : ℚ) * (2 : ℚ) ^ (e - 52) := by
  have hlog : Int.log 2 q = e := by
    refine le_antisymm ?_ ((Int.zpow_le_iff_le_log one_lt_two h0).1 h1)
    have h3 := (Int.lt_zpow_iff_log_lt one_lt_two h0).1 h2
    omega
  rw [pyFloat, if_neg (ne_of_gt h0)]
  simp only [abs_of_pos h0, hlog, max_eq_left he, hm, if_neg (not_lt.2 h0.le), one_mul]

/-- `pyFloat` preserves nonnegativity. -/
theorem pyFloat_nonneg {q : ℚ} (h : 0 ≤ q) : 0 ≤ pyFloat q := by
  rcases eq_or_lt_of_le h with h0 | h0
  · rw [pyFloat, if_pos h0.symm]
  · rw [pyFloat, if_neg (ne_of_gt h0)]
    simp only [if_neg (not_lt.2 h0.le), one_mul]
    refine mul_nonneg ?_ (zpow_nonneg (by norm_num) _)
    have harg : (0 : ℚ) ≤ |q| * (2 : ℚ) ^ ((52 : ℤ) - max (Int.log 2 |q|) (-1022)) :=
      mul_nonneg (abs_nonneg q) (zpow_nonneg (by norm_num) _)
    exact_mod_cast roundHalfEven_nonneg harg

/-- `float('1.5') = 1.5` exactly: `1.5` is representable in binary64. -/
theorem pyFloat_three_halves : pyFloat (3 / 2 : ℚ) = 3 / 2 := by
  have hm : roundHalfEven ((3 / 2 : ℚ) * (2 : ℚ) ^ ((52 : ℤ) - 0)) = 6755399441055744 := by
    rw [show ((3 / 2 : ℚ) * (2 : ℚ) ^ ((52 : ℤ) - 0)) = ((6755399441055744 : ℤ) : ℚ)
      by norm_num]
    exact roundHalfEven_intCast _
  rw [pyFloat_eval (e := 0) (m := 6755399441055744) (by norm_num) (by norm_num)
    (by norm_num) (by norm_num) hm]
  norm_num

/-- `float('0.0005')` is not `1/2000` but the next double above it. -/
theorem pyFloat_point0005 :
    pyFloat (1 / 2000 : ℚ) = 1152921504606847 / 2305843009213693952 := by
  have hfl : ⌊(576460752303423488 / 125 : ℚ)⌋ = 4611686018427387 := by
    rw [Int.floor_eq_iff]
    constructor <;> norm_num
  have hm : roundHalfEven ((1 / 2000 : ℚ) * (2 : ℚ) ^ ((52 : ℤ) - (-11))) =
      4611686018427388 := by
    rw [show ((1 / 2000 : ℚ) * (2 : ℚ) ^ ((52 : ℤ) - (-11))) = 576460752303423488 / 125
      by norm_num]
    rw [show (4611686018427388 : ℤ) = 4611686018427387 + 1 by norm_num]
    exact roundHalfEven_eq_up_of hfl (by norm_num)
  rw [pyFloat_eval (e := -11) (m := 4611686018427388) (by norm_num) (by norm_num)
    (by norm_num) (by norm_num) hm]
  norm_num

/-- The float product `float('0.0005') * 1000` is exactly `0.5` (binary64
rounds the true product `0.50000000000000001…` back to a half). -/
theorem pyFloat_point0005_times_1000 :
    pyFloat ((1152921504606847 / 2305843009213693952 : ℚ) * 1000) = 1 / 2 := by
  rw [show ((1152921504606847 / 2305843009213693952 : ℚ) * 1000) =
    144115188075855875 / 288230376151711744 by norm_num]
  have hfl : ⌊(144115188075855875 / 32 : ℚ)⌋ = 4503599627370496 := by
    rw [Int.floor_eq_iff]
    constructor <;> norm_num
  have hm : roundHalfEven ((144115188075855875 / 288230376151711744 : ℚ) *
      (2 : ℚ) ^ ((52 : ℤ) - (-1))) = 4503599627370496 := by
    rw [show ((144115188075855875 / 288230376151711744 : ℚ) *
      (2 : ℚ) ^ ((52 : ℤ) - (-1))) = 144115188075855875 / 32 by norm_num]
    exact roundHalfEven_eq_floor_of hfl (by norm_num)
  rw [pyFloat_eval (e := -1) (m := 4503599627370496) (by norm_num) (by norm_num)
    (by norm_num) (by norm_num) hm]
  norm_num

/-- `int(0.5) = 0`. -/
theorem pyInt_half : pyInt (1 / 2 : ℚ) = 0 := by
  rw [pyInt, if_pos (by norm_num)]
  rw [Int.floor_eq_zero_iff, Set.mem_Ico]
  constructor <;> norm_num

/-! # Claims -/

/-- Claim C5: parsing `"[voice X]: hello [pause 1.5] [voice Y]: world"`
returns exactly the five segments VoiceSegment(X), TextSegment("hello"),
PauseSegment(1.5), VoiceSegment(Y), TextSegment("world"), in that order,
with each inline text bound directly after its preceding voice marker. -/
theorem C5_parse_example :
    parse_tags_into_segments "[voice X]: hello [pause 1.5] [voice Y]: world" "en-US-AriaNeural" =
      [Segment.voice "X", Segment.text "hello", Segment.pause (3 / 2),
        Segment.voice "Y", Segment.text "world"] := by
  have d1 : digitsToNat ['1'] = 1 := rfl
  have d5 : digitsToNat ['5'] = 5 := rfl
  have hv : pauseVal ['1'] ['5'] = 3 / 2 := by norm_num [pauseVal, d1, d5]
  have h : pyFloat (pauseVal ['1'] ['5']) = 3 / 2 := by
    rw [hv]
    exact pyFloat_three_halves
  rw [← h]
  rfl

/-- Claim C9: the `/progress/<job_id>` route answers a lookup of an absent
job id with the distinct not-found response (never a default or zero-valued
record), and a lookup of a present id with the data of the stored record. -/
theorem C9_progress_route (st : String → Option ProgressRecord) (jobId : String) :
    (st jobId = none → progressRoute st jobId = ProgressResponse.notFound) ∧
    (∀ r : ProgressRecord, st jobId = some r →
      progressRoute st jobId = ProgressResponse.ok (pctOf r) r.status ∧
      progressRoute st jobId ≠ ProgressResponse.notFound) := by
  refine ⟨fun h => ?_, fun r h => ?_⟩
  · simp [progressRoute, h]
  · simp [progressRoute, h]

/-- Witness for C9 on a concrete one-job store. -/
theorem C9_progress_route_witness :
    progressRoute (fun j => if j = "17" then some ⟨1, 2, "Queued"⟩ else none) "18" =
        ProgressResponse.notFound ∧
      progressRoute (fun j => if j = "17" then some ⟨1, 2, "Queued"⟩ else none) "17" =
        ProgressResponse.ok (pctOf ⟨1, 2, "Queued"⟩) "Queued" :=
  ⟨(C9_progress_route (fun j => if j = "17" then some ⟨1, 2, "Queued"⟩ else none) "18").1
      (by decide),
    ((C9_progress_route (fun j => if j = "17" then some ⟨1, 2, "Queued"⟩ else none) "17").2
      ⟨1, 2, "Queued"⟩ (by decide)).1⟩

/-- Claim C7 counterexample: for the pair voice = `"a|a"`, text = `"a"` —
two distinct strings — swapping voice and text does not change the cache
key, for any digest whatsoever (in particular any injective one), because
the separator makes both preimages `"a|a|a"`. -/
theorem C7_counterexample :
    cache_key (fun s => s) "a" "a|a" = cache_key (fun s => s) "a|a" "a" ∧
      ("a" : String) ≠ "a|a" ∧ Function.Injective (fun s : String => s) :=
  ⟨by decide, by decide, fun _ _ h => h⟩

/-- Claim C7 (amended): the cache digest is a deterministic function of
`(voice, text)`; with a collision-free digest, changing the voice alone or
the text alone always changes the key, and swapping voice and text changes
the key whenever the two separator-joined preimages differ (which can fail
when a component contains the separator `"|"`, e.g. voice `"a|a"`,
text `"a"`). -/
theorem C7_amended (h : String → String) (hinj : Function.Injective h)
    (t t' v v' : String) :
    (t = t' → v = v' → cache_key h t v = cache_key h t' v') ∧
    (v ≠ v' → cache_key h t v ≠ cache_key h t v') ∧
    (t ≠ t' → cache_key h t v ≠ cache_key h t' v) ∧
    (v ++ "|" ++ t ≠ t ++ "|" ++ v → cache_key h t v ≠ cache_key h v t) := by
  refine ⟨fun h1 h2 => by rw [h1, h2], fun hne heq => ?_, fun hne heq => ?_,
    fun hne heq => hne (hinj heq)⟩
  · have h2 : v ++ "|" ++ t = v' ++ "|" ++ t := hinj heq
    have h3 : (v ++ "|").data ++ t.data = (v' ++ "|").data ++ t.data := by
      have := congrArg String.data h2
      rwa [String.data_append (v ++ "|") t, String.data_append (v' ++ "|") t] at this
    have h4 : (v ++ "|").data = (v' ++ "|").data := List.append_cancel_right h3
    have h5 : v.data ++ "|".data = v'.data ++ "|".data := by
      rwa [String.data_append v "|", String.data_append v' "|"] at h4
    exact hne (String.ext (List.append_cancel_right h5))
  · have h2 : v ++ "|" ++ t = v ++ "|" ++ t' := hinj heq
    have h3 : (v ++ "|").data ++ t.data = (v ++ "|").data ++ t'.data := by
      have := congrArg String.data h2
      rwa [String.data_append (v ++ "|") t, String.data_append (v ++ "|") t'] at this
    exact hne (String.ext (List.append_cancel_left h3))

/-- Witness for C7 (amended) with the identity digest and concrete strings. -/
theorem C7_amended_witness :
    cache_key (fun s => s) "x" "u" ≠ cache_key (fun s => s) "x" "w" ∧
      cache_key (fun s => s) "x" "u" ≠ cache_key (fun s => s) "y" "u" ∧
      cache_key (fun s => s) "x" "u" ≠ cache_key (fun s => s) "u" "x" :=
  ⟨(C7_amended (fun s => s) (fun _ _ hh => hh) "x" "y" "u" "w").2.1 (by decide),
    (C7_amended (fun s => s) (fun _ _ hh => hh) "x" "y" "u" "w").2.2.1 (by decide),
    (C7_amended (fun s => s) (fun _ _ hh => hh) "x" "y" "u" "w").2.2.2 (by decide)⟩

/-! ## C4: inter-block silence -/

/-- The per-block pipeline outputs of a `tts_all` run, with the cache
threaded through the blocks in request order. -/
def blockOutputs (env : Env) (now : ℚ) : CacheState → List Block → List (List Piece)
  | _, [] => []
  | cache, b :: bs =>
    let segs := parse_tags_into_segments b.text b.voice
    let res := synthesize_segments_to_mp3 env now segs b.voice cache
    res.state.merged :: blockOutputs env now res.state.cache bs

/-- Modelled from the spec: block outputs concatenated with exactly one
500 ms silence between each pair of consecutive blocks (none before the
first block or after the last). -/
def interBlockSpec (outs : List (List Piece)) : List Piece :=
  (outs.intersperse [Piece.silence 500]).flatten

/-- The `tts_all` loop appends each block's output followed by a 500 ms
silence. -/
theorem ttsAux_merged (env : Env) (now : ℚ) (n : ℕ) :
    ∀ (bs : List Block) (i : ℕ) (last : ProgressRecord) (cache : CacheState),
      (ttsAux env now n i last cache bs).2.1 =
        ((blockOutputs env now cache bs).map fun out => out ++ [Piece.silence 500]).flatten := by
  intro bs
  induction bs with
  | nil => intro i last cache; rfl
  | cons b bs ih =>
    intro i last cache
    simp only [ttsAux, blockOutputs, List.map_cons, List.flatten_cons, ih]

/-- Appending the separator to every chunk differs from interspersing it
only by one trailing separator (for a nonempty chunk list). -/
theorem join_map_append_eq_intersperse (sep : Piece) :
    ∀ (outs : List (List Piece)), outs ≠ [] →
      ((outs.map fun out => out ++ [sep]).flatten) =
        ((outs.intersperse [sep]).flatten) ++ [sep] := by
  intro outs
  induction outs with
  | nil => intro h; exact absurd rfl h
  | cons o outs ih =>
    intro _
    cases outs with
    | nil => simp [List.intersperse]
    | cons o' outs' =>
      rw [List.map_cons, List.flatten_cons, ih (List.cons_ne_nil o' outs'),
        List.intersperse_cons_cons, List.flatten_cons, List.flatten_cons]
      simp [List.append_assoc]

/-- Claim C4 counterexample: for the single-block request `[{text: "c",
voice: "v"}]` (with an all-succeeding provider and empty cache) the final
merged audio is the block output followed by a 500 ms silence, not the plain
concatenation with silences only between consecutive blocks that the claim
describes. -/
theorem C4_counterexample :
    (tts_all idEnv 0 [⟨"c", "v"⟩] ⟨[], []⟩).merged =
        [Piece.real "v|c", Piece.silence 500] ∧
      interBlockSpec (blockOutputs idEnv 0 ⟨[], []⟩ [⟨"c", "v"⟩]) = [Piece.real "v|c"] ∧
      ([Piece.real "v|c", Piece.silence 500] : List Piece) ≠ [Piece.real "v|c"] :=
  ⟨by decide, by decide, by decide⟩

/-- Claim C4 (amended): for every multi-block job the final merged audio is
the concatenation of the block outputs with one fixed 500 ms silence after
every block — including the last — i.e. N silences for N blocks;
equivalently, the spec's between-blocks concatenation followed by one extra
trailing 500 ms silence. -/
theorem C4_amended (env : Env) (now : ℚ) (cache : CacheState) (blocks : List Block) :
    (tts_all env now blocks cache).merged =
        ((blockOutputs env now cache blocks).map fun out => out ++ [Piece.silence 500]).flatten ∧
      (blocks ≠ [] →
        (tts_all env now blocks cache).merged =
          interBlockSpec (blockOutputs env now cache blocks) ++ [Piece.silence 500]) := by
  have h1 : (tts_all env now blocks cache).merged =
      ((blockOutputs env now cache blocks).map fun out => out ++ [Piece.silence 500]).flatten :=
    ttsAux_merged env now blocks.length blocks 0 ⟨0, blocks.length, "Queued"⟩ cache
  refine ⟨h1, fun hne => ?_⟩
  have h2 : blockOutputs env now cache blocks ≠ [] := by
    cases blocks with
    | nil => exact absurd rfl hne
    | cons b bs => simp [blockOutputs]
  rw [h1, interBlockSpec, ← join_map_append_eq_intersperse (Piece.silence 500) _ h2]

/-- Witness for C4 (amended) on a concrete two-block request. -/
theorem C4_amended_witness :
    (tts_all idEnv 0 [⟨"c", "v"⟩, ⟨"d", "v"⟩] ⟨[], []⟩).merged =
        ((blockOutputs idEnv 0 ⟨[], []⟩ [⟨"c", "v"⟩, ⟨"d", "v"⟩]).map
          fun out => out ++ [Piece.silence 500]).flatten ∧
      (tts_all idEnv 0 [⟨"c", "v"⟩, ⟨"d", "v"⟩] ⟨[], []⟩).merged =
        interBlockSpec (blockOutputs idEnv 0 ⟨[], []⟩ [⟨"c", "v"⟩, ⟨"d", "v"⟩]) ++
          [Piece.silence 500] :=
  ⟨(C4_amended idEnv 0 ⟨[], []⟩ [⟨"c", "v"⟩, ⟨"d", "v"⟩]).1,
    (C4_amended idEnv 0 ⟨[], []⟩ [⟨"c", "v"⟩, ⟨"d", "v"⟩]).2 (by decide)⟩

/-! ## C6: what the lookup actually consults -/

/-- Claim C6 counterexample: with the artifact file present on the backing
store but absent from the metadata index, the pipeline still takes the hit
path for `(voice, text) = ("v", "t")`: the provider is never invoked and the
cached artifact is decoded, while the claim requires a miss unless the
artifact is also indexed. -/
theorem C6_counterexample :
    (synthesize_segments_to_mp3 idEnv 0 [Segment.text "t"] "v"
        ⟨["v|t"], []⟩).state.calls = [] ∧
      (synthesize_segments_to_mp3 idEnv 0 [Segment.text "t"] "v"
        ⟨["v|t"], []⟩).state.merged = [Piece.real "v|t"] ∧
      (CacheState.mk ["v|t"] []).index = [] ∧
      (CacheState.mk ["v|t"] []).files.contains (cache_key idEnv.hash "t" "v") = true :=
  ⟨by decide, by decide, rfl, by decide⟩

/-- Claim C6 (amended): the cache lookup of the pipeline returns a hit if and
only if the artifact file exists on the backing store
(`os.path.exists(cached_path)`); the metadata index is not consulted.  The
provider is invoked exactly when the file is absent, and on a hit the backing
store is unchanged and the index is only touched (`db_touch`, a no-op for an
unindexed key). -/
theorem C6_amended (env : Env) (now : ℚ) (st : RunState) (content : String)
    (htext : (strOf (trimChars content.data)).isEmpty = false) :
    ((stepSeg env now st (Segment.text content)).calls = st.calls ↔
      st.cache.files.contains
        (cache_key env.hash (strOf (trimChars content.data)) st.currentVoice) = true) ∧
    (st.cache.files.contains
        (cache_key env.hash (strOf (trimChars content.data)) st.currentVoice) = true →
      (stepSeg env now st (Segment.text content)).cache.files = st.cache.files ∧
        (stepSeg env now st (Segment.text content)).cache.index =
          db_touch st.cache.index
            (cache_key env.hash (strOf (trimChars content.data)) st.currentVoice) now) := by
  by_cases hc : st.cache.files.contains
      (cache_key env.hash (strOf (trimChars content.data)) st.currentVoice) = true
  · have hm : cache_key env.hash (strOf (trimChars content.data)) st.currentVoice ∈
        st.cache.files := by simpa using hc
    refine ⟨⟨fun _ => hc, fun _ => ?_⟩, fun _ => ?_⟩
    · simp [stepSeg, htext, hm]
    · constructor <;> simp [stepSeg, htext, hm]
  · have hm : cache_key env.hash (strOf (trimChars content.data)) st.currentVoice ∉
        st.cache.files := by simpa using hc
    refine ⟨⟨fun hcalls => absurd ?_ hc, fun hcv => absurd hcv hc⟩, fun hcv => absurd hcv hc⟩
    exfalso
    by_cases hs : env.synthOk (strOf (trimChars content.data)) st.currentVoice = true <;>
      simp [stepSeg, htext, hm, hs] at hcalls

/-- Witness for C6 (amended) at the counterexample state. -/
theorem C6_amended_witness :
    ((stepSeg idEnv 0 (initState "v" ⟨["v|t"], []⟩) (Segment.text "t")).calls =
        (initState "v" ⟨["v|t"], []⟩).calls ↔
      (initState "v" ⟨["v|t"], []⟩).cache.files.contains
        (cache_key idEnv.hash (strOf (trimChars ("t" : String).data))
          (initState "v" ⟨["v|t"], []⟩).currentVoice) = true) :=
  (C6_amended idEnv 0 (initState "v" ⟨["v|t"], []⟩) "t" (by decide)).1

/-! ## C10: a poisoned cache entry is never refreshed -/

/-- The cache state after one pipeline run on the single segment
`[{"type": "text", "content": content}]`. -/
def runOnceCache (env : Env) (now : ℚ) (content voice : String)
    (cache : CacheState) : CacheState :=
  (synthesize_segments_to_mp3 env now [Segment.text content] voice cache).state.cache

/-- The cache state after `n` such runs. -/
def runNCache (env : Env) (now : ℚ) (content voice : String) :
    ℕ → CacheState → CacheState
  | 0, cache => cache
  | n + 1, cache => runOnceCache env now content voice (runNCache env now content voice n cache)

/-- `db_touch` only rewrites `mtime`: the keys of the index are unchanged. -/
theorem db_touch_hashes (idx : List CacheRow) (key : String) (now : ℚ) :
    (db_touch idx key now).map (fun r => r.hash) = idx.map (fun r => r.hash) := by
  simp only [db_touch, List.map_map]
  apply List.map_congr_left
  intro r _
  by_cases h : r.hash = key <;> simp [h]

/-- Claim C10: when the cached artifact of a present key fails to decode,
the hit path substitutes 500 ms of silence, leaves the backing store
unchanged and only touches the index row, so every one of the `n` subsequent
runs with the same `(voice, text)` again takes the hit path, again
substitutes silence, and never invokes the synthesis provider. -/
theorem C10_hit_decode_fail_stable (env : Env) (now : ℚ) (cache : CacheState)
    (voice content : String)
    (htext : (strOf (trimChars content.data)).isEmpty = false)
    (hfile : cache.files.contains
      (cache_key env.hash (strOf (trimChars content.data)) voice) = true)
    (hdec : env.decodeOk (cache_key env.hash (strOf (trimChars content.data)) voice) = false) :
    ∀ n : ℕ,
      (runNCache env now content voice n cache).files = cache.files ∧
        (runNCache env now content voice n cache).index.map (fun r => r.hash) =
          cache.index.map (fun r => r.hash) ∧
        (synthesize_segments_to_mp3 env now [Segment.text content] voice
          (runNCache env now content voice n cache)).state.calls = [] ∧
        (synthesize_segments_to_mp3 env now [Segment.text content] voice
          (runNCache env now content voice n cache)).state.merged = [Piece.silence 500] := by
  have step : ∀ c : CacheState, c.files = cache.files →
      (runOnceCache env now content voice c).files = cache.files ∧
        (runOnceCache env now content voice c).index.map (fun r => r.hash) =
          c.index.map (fun r => r.hash) ∧
        (synthesize_segments_to_mp3 env now [Segment.text content] voice c).state.calls = [] ∧
        (synthesize_segments_to_mp3 env now [Segment.text content] voice c).state.merged =
          [Piece.silence 500] := by
    intro c hcf
    have hmc : cache_key env.hash (strOf (trimChars content.data)) voice ∈ cache.files := by
      simpa using hfile
    refine ⟨?_, ?_, ?_, ?_⟩ <;>
      simp [runOnceCache, synthesize_segments_to_mp3, synthAux, stepSeg,
        htext, hmc, hdec, db_touch_hashes, hcf]
  intro n
  induction n with
  | zero =>
    exact ⟨rfl, rfl, (step cache rfl).2.2.1, (step cache rfl).2.2.2⟩
  | succ n ih =>
    have s := step (runNCache env now content voice n cache) ih.1
    refine ⟨s.1, ?_, (step _ s.1).2.2.1, (step _ s.1).2.2.2⟩
    have h2 : (runNCache env now content voice (n + 1) cache).index.map (fun r => r.hash) =
        (runNCache env now content voice n cache).index.map (fun r => r.hash) := s.2.1
    rw [h2, ih.2.1]

/-- Witness for C10 at a concrete poisoned entry (`decodeOk` false on the
key, file present, index empty), iterated three times. -/
theorem C10_hit_decode_fail_stable_witness :
    (runNCache ⟨fun s => s, fun _ _ => true, fun _ => false, fun _ => 0⟩ 0 "t" "v" 3
        ⟨["v|t"], []⟩).files = (CacheState.mk ["v|t"] []).files ∧
      (runNCache ⟨fun s => s, fun _ _ => true, fun _ => false, fun _ => 0⟩ 0 "t" "v" 3
          ⟨["v|t"], []⟩).index.map (fun r => r.hash) =
        (CacheState.mk ["v|t"] []).index.map (fun r => r.hash) ∧
      (synthesize_segments_to_mp3 ⟨fun s => s, fun _ _ => true, fun _ => false, fun _ => 0⟩ 0
          [Segment.text "t"] "v"
          (runNCache ⟨fun s => s, fun _ _ => true, fun _ => false, fun _ => 0⟩ 0 "t" "v" 3
            ⟨["v|t"], []⟩)).state.calls = [] ∧
      (synthesize_segments_to_mp3 ⟨fun s => s, fun _ _ => true, fun _ => false, fun _ => 0⟩ 0
          [Segment.text "t"] "v"
          (runNCache ⟨fun s => s, fun _ _ => true, fun _ => false, fun _ => 0⟩ 0 "t" "v" 3
            ⟨["v|t"], []⟩)).state.merged = [Piece.silence 500] :=
  C10_hit_decode_fail_stable ⟨fun s => s, fun _ _ => true, fun _ => false, fun _ => 0⟩ 0
    ⟨["v|t"], []⟩ "v" "t" (by decide) (by decide) rfl 3

/-! ## C2: per-segment failures never abort the pipeline -/

/-- A synthesis or decode failure for a (nonempty) text segment in state
`st`, covering the three failing code paths: cached artifact that does not
decode, provider failure on a miss, and fresh artifact that does not
decode. -/
def segFails (env : Env) (st : RunState) (content : String) : Prop :=
  (cache_key env.hash (strOf (trimChars content.data)) st.currentVoice ∈ st.cache.files ∧
    env.decodeOk (cache_key env.hash (strOf (trimChars content.data)) st.currentVoice) = false) ∨
  (cache_key env.hash (strOf (trimChars content.data)) st.currentVoice ∉ st.cache.files ∧
    env.synthOk (strOf (trimChars content.data)) st.currentVoice = false) ∨
  (cache_key env.hash (strOf (trimChars content.data)) st.currentVoice ∉ st.cache.files ∧
    env.synthOk (strOf (trimChars content.data)) st.currentVoice = true ∧
    env.decodeOk (cache_key env.hash (strOf (trimChars content.data)) st.currentVoice) = false)

/-- Every branch of the loop body advances `done` by exactly one. -/
theorem stepSeg_done (env : Env) (now : ℚ) (st : RunState) (seg : Segment) :
    (stepSeg env now st seg).done = st.done + 1 := by
  cases seg with
  | voice n => rfl
  | pause d => rfl
  | text c =>
    simp only [stepSeg]
    split_ifs <;> rfl

/-- The state computed by the instrumented loop is the plain fold. -/
theorem synthAux_state (env : Env) (now : ℚ) (total : ℕ) :
    ∀ (segs : List Segment) (st : RunState),
      (synthAux env now total st segs).1 = runSegs env now st segs := by
  intro segs
  induction segs with
  | nil => intro st; rfl
  | cons s rest ih => intro st; simpa [synthAux, runSegs] using ih (stepSeg env now st s)

/-- The fold advances `done` by the number of segments. -/
theorem runSegs_done (env : Env) (now : ℚ) :
    ∀ (segs : List Segment) (st : RunState),
      (runSegs env now st segs).done = st.done + segs.length := by
  intro segs
  induction segs with
  | nil => intro st; rfl
  | cons s rest ih =>
    intro st
    have h := ih (stepSeg env now st s)
    simp only [runSegs, List.foldl_cons] at h ⊢
    rw [h, stepSeg_done]
    simp only [List.length_cons]
    omega

/-- Last element of a nonempty cons-concat list. -/
theorem getLast?_cons_concat (a x : ProgressRecord) (l : List ProgressRecord) :
    (a :: (l ++ [x])).getLast? = some x := by
  rw [← List.cons_append, List.getLast?_concat]

/-- Claim C2: if synthesis or decoding fails for a segment, the pipeline
appends exactly 500 ms of silence in place of that segment's audio, still
advances the `done` counter, continues with the remaining segments from the
post-failure state, and the run still ends with `done = total` and the
terminal `"Complete"` record. -/
theorem C2_segment_failure_resilient (env : Env) (now : ℚ) (voice : String)
    (cache : CacheState) (pre post : List Segment) (content : String)
    (htext : (strOf (trimChars content.data)).isEmpty = false)
    (hfail : segFails env (runSegs env now (initState voice cache) pre) content) :
    (stepSeg env now (runSegs env now (initState voice cache) pre)
          (Segment.text content)).merged =
        (runSegs env now (initState voice cache) pre).merged ++ [Piece.silence 500] ∧
      (stepSeg env now (runSegs env now (initState voice cache) pre)
          (Segment.text content)).done =
        (runSegs env now (initState voice cache) pre).done + 1 ∧
      (synthesize_segments_to_mp3 env now (pre ++ Segment.text content :: post) voice
          cache).state =
        runSegs env now
          (stepSeg env now (runSegs env now (initState voice cache) pre)
            (Segment.text content)) post ∧
      (synthesize_segments_to_mp3 env now (pre ++ Segment.text content :: post) voice
          cache).state.done = (pre ++ Segment.text content :: post).length ∧
      (synthesize_segments_to_mp3 env now (pre ++ Segment.text content :: post) voice
          cache).trace.getLast? =
        some ⟨(pre ++ Segment.text content :: post).length,
          (pre ++ Segment.text content :: post).length, "Complete"⟩ := by
  refine ⟨?_, stepSeg_done env now _ _, ?_, ?_, ?_⟩
  · rcases hfail with ⟨hm, hd⟩ | ⟨hm, hs⟩ | ⟨hm, hs, hd⟩
    · simp [stepSeg, htext, hm, hd]
    · simp [stepSeg, htext, hm, hs]
    · simp [stepSeg, htext, hm, hs, hd]
  · rw [synthesize_segments_to_mp3]
    simp only [synthAux_state]
    rw [runSegs, List.foldl_append, List.foldl_cons]
    rfl
  · rw [synthesize_segments_to_mp3]
    simp only [synthAux_state]
    rw [runSegs_done]
    simp [initState]
  · simp [synthesize_segments_to_mp3, getLast?_cons_concat]

/-- Environment for the C2 witness: the provider fails exactly on the text
`"b"`, everything else succeeds. -/
def envC2 : Env :=
  ⟨fun s => s, fun t _ => if t = "b" then false else true, fun _ => true, fun _ => 0⟩

/-- Witness for C2: the spec's three-segment scenario — provider forced to
fail on the middle segment — instantiated concretely. -/
theorem C2_segment_failure_resilient_witness :
    (stepSeg envC2 0 (runSegs envC2 0 (initState "v" ⟨[], []⟩) [Segment.text "a"])
          (Segment.text "b")).merged =
        (runSegs envC2 0 (initState "v" ⟨[], []⟩) [Segment.text "a"]).merged ++
          [Piece.silence 500] ∧
      (synthesize_segments_to_mp3 envC2 0
          ([Segment.text "a"] ++ Segment.text "b" :: [Segment.text "c"]) "v"
          ⟨[], []⟩).state.done =
        ([Segment.text "a"] ++ Segment.text "b" :: [Segment.text "c"]).length ∧
      (synthesize_segments_to_mp3 envC2 0
          ([Segment.text "a"] ++ Segment.text "b" :: [Segment.text "c"]) "v"
          ⟨[], []⟩).trace.getLast? =
        some ⟨([Segment.text "a"] ++ Segment.text "b" :: [Segment.text "c"]).length,
          ([Segment.text "a"] ++ Segment.text "b" :: [Segment.text "c"]).length,
          "Complete"⟩ :=
  ⟨(C2_segment_failure_resilient envC2 0 "v" ⟨[], []⟩ [Segment.text "a"] [Segment.text "c"]
      "b" (by decide) (Or.inr (Or.inl (by decide)))).1,
    (C2_segment_failure_resilient envC2 0 "v" ⟨[], []⟩ [Segment.text "a"] [Segment.text "c"]
      "b" (by decide) (Or.inr (Or.inl (by decide)))).2.2.2.1,
    (C2_segment_failure_resilient envC2 0 "v" ⟨[], []⟩ [Segment.text "a"] [Segment.text "c"]
      "b" (by decide) (Or.inr (Or.inl (by decide)))).2.2.2.2⟩

/-! ## C8: pause durations and the silence actually appended -/

/-- `takeWhile` passes over a block of satisfying elements. -/
theorem takeWhile_append_of_all (p : Char → Bool) :
    ∀ (l1 l2 : List Char), (∀ c ∈ l1, p c = true) →
      (l1 ++ l2).takeWhile p = l1 ++ l2.takeWhile p := by
  intro l1
  induction l1 with
  | nil => intro l2 _; rfl
  | cons c l1 ih =>
    intro l2 h
    have h1 := h c (List.mem_cons_self c l1)
    have h2 := ih l2 fun c' hc' => h c' (List.mem_cons_of_mem _ hc')
    simp [List.takeWhile_cons, h1, h2]

/-- `dropWhile` drops a block of satisfying elements. -/
theorem dropWhile_append_of_all (p : Char → Bool) :
    ∀ (l1 l2 : List Char), (∀ c ∈ l1, p c = true) →
      (l1 ++ l2).dropWhile p = l2.dropWhile p := by
  intro l1
  induction l1 with
  | nil => intro l2 _; rfl
  | cons c l1 ih =>
    intro l2 h
    rw [List.cons_append, List.dropWhile_cons, h c (List.mem_cons_self c l1)]
    exact ih l2 fun c' hc' => h c' (List.mem_cons_of_mem _ hc')

/-- A decimal digit is not whitespace. -/
theorem digit_not_ws (c : Char) (h : c.isDigit = true) : c.isWhitespace = false := by
  cases hw : c.isWhitespace
  · rfl
  · exfalso
    simp only [Char.isWhitespace, Bool.or_eq_true, decide_eq_true_eq] at hw
    rcases hw with ((h1 | h1) | h1) | h1 <;> subst h1 <;> exact absurd h (by decide)

/-- A decimal digit is not a closing bracket (as a `takeWhile` stopper). -/
theorem digit_stops (l : List Char) (h : ∀ c ∈ l, c.isDigit = true) :
    List.takeWhile Char.isDigit (l ++ [']']) = l ∧
      List.dropWhile Char.isWhitespace (l ++ [']']) = l ++ [']'] ∨ l = [] := by
  cases l with
  | nil => exact Or.inr rfl
  | cons c l' =>
    refine Or.inl ⟨?_, ?_⟩
    · rw [takeWhile_append_of_all Char.isDigit _ _ h]
      simp
    · rw [List.cons_append, List.dropWhile_cons,
        digit_not_ws c (h c (List.mem_cons_self c l'))]
      rfl

/-- The pause alternative on the marker `[pause i.f]` (or `[pause i]` when
`f` is empty) returns exactly the numeral's digit groups and consumes the
whole marker. -/
theorem matchPause_numeral (i f : List Char) (hi : i ≠ [])
    (hdi : ∀ c ∈ i, c.isDigit = true) (hdf : ∀ c ∈ f, c.isDigit = true) :
    matchPause ('[' :: 'p' :: 'a' :: 'u' :: 's' :: 'e' :: ' ' ::
        (i ++ (if f.isEmpty then [] else '.' :: f) ++ [']'])) = some (i, f, []) := by
  obtain ⟨c, i', rfl⟩ : ∃ c i', i = c :: i' := by
    cases i with
    | nil => exact absurd rfl hi
    | cons c i' => exact ⟨c, i', rfl⟩
  cases f with
  | nil =>
    simp only [show (if ([] : List Char).isEmpty = true then ([] : List Char) else '.' :: []) =
      [] from rfl, List.append_nil]
    have hm : matchCI ['[', 'p', 'a', 'u', 's', 'e']
        ('[' :: 'p' :: 'a' :: 'u' :: 's' :: 'e' :: ' ' :: ((c :: i') ++ [']'])) =
        some (' ' :: ((c :: i') ++ [']'])) := rfl
    have h1 : List.dropWhile Char.isWhitespace (' ' :: ((c :: i') ++ [']'])) =
        (c :: i') ++ [']'] := by
      rw [List.dropWhile_cons, if_pos (show (' '.isWhitespace = true) from rfl),
        List.cons_append, List.dropWhile_cons,
        digit_not_ws c (hdi c (List.mem_cons_self c i'))]
      rfl
    have h2 : List.takeWhile Char.isDigit ((c :: i') ++ [']']) = c :: i' := by
      rw [takeWhile_append_of_all Char.isDigit _ _ hdi]
      simp
    simp only [matchPause, hm, h1, h2]
    rw [show (c :: i').length = ((c :: i') : List Char).length from rfl, List.drop_left]
    simp [stripUnit]
  | cons f0 f' =>
    simp only [show (if ((f0 :: f') : List Char).isEmpty = true then ([] : List Char)
      else '.' :: (f0 :: f')) = '.' :: (f0 :: f') from rfl]
    have hassoc : ((c :: i') ++ '.' :: (f0 :: f')) ++ [']'] =
        (c :: i') ++ ('.' :: ((f0 :: f') ++ [']'])) := by
      simp [List.append_assoc]
    rw [hassoc]
    have hm : matchCI ['[', 'p', 'a', 'u', 's', 'e']
        ('[' :: 'p' :: 'a' :: 'u' :: 's' :: 'e' :: ' ' ::
          ((c :: i') ++ ('.' :: ((f0 :: f') ++ [']'])))) =
        some (' ' :: ((c :: i') ++ ('.' :: ((f0 :: f') ++ [']'])))) := rfl
    have h1 : List.dropWhile Char.isWhitespace
        (' ' :: ((c :: i') ++ ('.' :: ((f0 :: f') ++ [']'])))) =
        (c :: i') ++ ('.' :: ((f0 :: f') ++ [']'])) := by
      rw [List.dropWhile_cons, if_pos (show (' '.isWhitespace = true) from rfl),
        List.cons_append, List.dropWhile_cons,
        digit_not_ws c (hdi c (List.mem_cons_self c i'))]
      rfl
    have h2 : List.takeWhile Char.isDigit
        ((c :: i') ++ ('.' :: ((f0 :: f') ++ [']']))) = c :: i' := by
      rw [takeWhile_append_of_all Char.isDigit _ _ hdi]
      simp
    have h3 : List.takeWhile Char.isDigit ((f0 :: f') ++ [']']) = f0 :: f' := by
      rw [takeWhile_append_of_all Char.isDigit _ _ hdf]
      simp
    simp only [matchPause, hm, h1, h2]
    rw [show (c :: i').length = ((c :: i') : List Char).length from rfl, List.drop_left]
    simp only [h3, List.isEmpty_cons]
    rw [show (f0 :: f').length = ((f0 :: f') : List Char).length from rfl, List.drop_left]
    simp [stripUnit]

/-- The voice alternative never fires on a `[pause ...]` marker. -/
theorem matchVoice_pause (rest : List Char) :
    matchVoice ('[' :: 'p' :: rest) = none := rfl

/-- Parsing a lone `[pause <numeral>]` marker yields exactly one
PauseSegment carrying the binary64 value of the numeral. -/
theorem parse_pause_numeral (dv : String) (i f : List Char) (hi : i ≠ [])
    (hdi : ∀ c ∈ i, c.isDigit = true) (hdf : ∀ c ∈ f, c.isDigit = true) :
    parse_tags_into_segments
        (strOf ('[' :: 'p' :: 'a' :: 'u' :: 's' :: 'e' :: ' ' ::
          (i ++ (if f.isEmpty then [] else '.' :: f) ++ [']']))) dv =
      [Segment.pause (pyFloat (pauseVal i f))] := by
  have hp := matchPause_numeral i f hi hdi hdf
  simp only [parse_tags_into_segments, strOf, List.length_cons]
  simp only [scanAux, matchVoice_pause, hp]
  simp [pendingSegs, trimChars]

/-- Claim C8 counterexample: the marker `[pause 0.0005]` parses to a
PauseSegment of `float('0.0005')` — already not exactly `0.0005` — and the
pipeline appends `int(float('0.0005') * 1000) = int(0.5) = 0` milliseconds
of silence, not the claimed `durationSeconds * 1000 ≈ 0.5` milliseconds. -/
theorem C8_counterexample :
    parse_tags_into_segments "[pause 0.0005]" "v" =
        [Segment.pause (pyFloat (1 / 2000))] ∧
      (stepSeg idEnv 0 (initState "v" ⟨[], []⟩)
          (Segment.pause (pyFloat (1 / 2000)))).merged = [Piece.silence 0] ∧
      pyFloat (1 / 2000 : ℚ) * 1000 ≠ ((0 : ℤ) : ℚ) ∧
      pyFloat (1 / 2000 : ℚ) ≠ 1 / 2000 := by
  refine ⟨?_, ?_, ?_, ?_⟩
  · have d0 : digitsToNat ['0'] = 0 := rfl
    have d5 : digitsToNat ['0', '0', '0', '5'] = 5 := rfl
    have h : pauseVal ['0'] ['0', '0', '0', '5'] = 1 / 2000 := by
      norm_num [pauseVal, d0, d5]
    rw [← h]
    rfl
  · show ([] : List Piece) ++
        [Piece.silence (pyInt (pyFloat (pyFloat (1 / 2000 : ℚ) * 1000)))] =
      [Piece.silence 0]
    rw [pyFloat_point0005, pyFloat_point0005_times_1000, pyInt_half]
    rfl
  · rw [pyFloat_point0005]
    norm_num
  · rw [pyFloat_point0005]
    norm_num

/-- Claim C8 (amended): a marker `[pause <number>]` (non-negative decimal,
fractions allowed) parses to a PauseSegment whose `durationSeconds` is the
binary64 value nearest to that number (float parsing; exactly the number
when it is representable); processing the segment appends
`int(fl(durationSeconds * 1000))` milliseconds of silence — the float
product rounded to binary64 and then truncated, i.e.
`⌊fl(durationSeconds * 1000)⌋` — and advances the counter.  The appended
silence equals `durationSeconds * 1000` only when that product survives both
roundings. -/
theorem C8_amended :
    (∀ (dv : String) (i f : List Char), i ≠ [] → (∀ c ∈ i, c.isDigit = true) →
        (∀ c ∈ f, c.isDigit = true) →
        parse_tags_into_segments
            (strOf ('[' :: 'p' :: 'a' :: 'u' :: 's' :: 'e' :: ' ' ::
              (i ++ (if f.isEmpty then [] else '.' :: f) ++ [']']))) dv =
          [Segment.pause (pyFloat (pauseVal i f))]) ∧
      (∀ (env : Env) (now : ℚ) (st : RunState) (d : ℚ),
        (stepSeg env now st (Segment.pause d)).merged =
            st.merged ++ [Piece.silence (pyInt (pyFloat (d * 1000)))] ∧
          (stepSeg env now st (Segment.pause d)).done = st.done + 1) ∧
      (∀ d : ℚ, 0 ≤ d → pyInt (pyFloat (d * 1000)) = ⌊pyFloat (d * 1000)⌋) := by
  refine ⟨parse_pause_numeral, fun env now st d => ⟨rfl, rfl⟩, fun d hd => ?_⟩
  rw [pyInt, if_pos (pyFloat_nonneg (by positivity))]

/-- Witness for C8 (amended) at the numeral `1.5`. -/
theorem C8_amended_witness :
    parse_tags_into_segments
        (strOf ('[' :: 'p' :: 'a' :: 'u' :: 's' :: 'e' :: ' ' ::
          (['1'] ++ (if (['5'] : List Char).isEmpty then [] else '.' :: ['5']) ++ [']']))) "v" =
      [Segment.pause (pyFloat (pauseVal ['1'] ['5']))] ∧
    (stepSeg idEnv 0 (initState "v" ⟨[], []⟩)
        (Segment.pause (pyFloat (pauseVal ['1'] ['5'])))).merged =
      (initState "v" ⟨[], []⟩).merged ++
        [Piece.silence (pyInt (pyFloat (pyFloat (pauseVal ['1'] ['5']) * 1000)))] ∧
    pyInt (pyFloat (pyFloat (pauseVal ['1'] ['5']) * 1000)) =
      ⌊pyFloat (pyFloat (pauseVal ['1'] ['5']) * 1000)⌋ :=
  ⟨C8_amended.1 "v" ['1'] ['5'] (by decide) (by decide) (by decide),
    (C8_amended.2.1 idEnv 0 (initState "v" ⟨[], []⟩) (pyFloat (pauseVal ['1'] ['5']))).1,
    C8_amended.2.2 (pyFloat (pauseVal ['1'] ['5']))
      (by
        have d1 : digitsToNat ['1'] = 1 := rfl
        have d5 : digitsToNat ['5'] = 5 := rfl
        have hv : pauseVal ['1'] ['5'] = 3 / 2 := by norm_num [pauseVal, d1, d5]
        rw [hv, pyFloat_three_halves]
        norm_num)⟩

/-! ## C1: progress monotonicity of a multi-block job -/

/-- `blockTrace` distributes over append. -/
theorem blockTrace_append (t1 t2 : List (Site × ProgressRecord)) :
    blockTrace (t1 ++ t2) = blockTrace t1 ++ blockTrace t2 := by
  simp [blockTrace, List.filter_append]

/-- Records stored inside the pipeline are not block-level. -/
theorem blockTrace_segMap (l : List ProgressRecord) :
    blockTrace (l.map fun r => (Site.seg, r)) = [] := by
  induction l with
  | nil => rfl
  | cons r rest ih => simp [blockTrace]

/-- A block-level store passes through `blockTrace`. -/
theorem blockTrace_cons_block (r : ProgressRecord) (t : List (Site × ProgressRecord)) :
    blockTrace ((Site.block, r) :: t) = r :: blockTrace t := by
  simp [blockTrace]

/-- The block-level records stored by the `tts_all` loop itself carry the
`done` values `i, i+1, ...` with the `Block j+1/n` statuses. -/
theorem ttsAux_blockTrace (env : Env) (now : ℚ) (n : ℕ) :
    ∀ (bs : List Block) (i : ℕ) (last : ProgressRecord) (cache : CacheState),
      (blockTrace (ttsAux env now n i last cache bs).2.2).map (fun r => (r.done, r.status)) =
        (List.range' i bs.length).map fun j => (j, blockStatus j n) := by
  intro bs
  induction bs with
  | nil => intro i last cache; rfl
  | cons b bs ih =>
    intro i last cache
    simp only [ttsAux, blockTrace_cons_block, blockTrace_append, blockTrace_segMap,
      List.nil_append, List.map_cons, List.length_cons, List.range'_succ]
    exact congrArg _ (ih (i + 1) _ _)

/-- `"Block j+1/n"` is never the `"Complete"` status. -/
theorem blockStatus_ne_complete (j n : ℕ) : blockStatus j n ≠ "Complete" := by
  intro h
  have h2 := congrArg (fun s : String => s.data.head?) h
  simp only [blockStatus, String.data_append, List.head?_append] at h2
  simp at h2

/-- A `range'` block followed by its upper bound is non-decreasing. -/
theorem chain'_range'_concat :
    ∀ (n s : ℕ), List.Chain' (· ≤ ·) (List.range' s n ++ [s + n]) := by
  intro n
  induction n with
  | zero => intro s; simp
  | succ m ih =>
    intro s
    have h := ih (s + 1)
    rw [List.range'_succ, List.cons_append]
    rw [List.chain'_cons']
    refine ⟨?_, by simpa [Nat.add_assoc, Nat.add_comm 1 m] using h⟩
    intro x hx
    cases m with
    | zero => simp at hx; omega
    | succ m' =>
      rw [List.range'_succ] at hx
      simp at hx
      omega

/-- Claim C1 counterexample: for the two-block job
`[{text: "hi [voice w]: yo", voice: "v"}, {text: "z", voice: "v"}]` (N = 2)
the sequence of `done` values successively stored under the job id is
`[0,0,0,0,1,2,3,1,0,0,1,2]`: it is not non-decreasing (the first block's
segment-level values 3 then 1 decrease), and `done = N = 2` is stored twice,
not exactly once. -/
theorem C1_counterexample :
    doneValues (tts_all idEnv 0 [⟨"hi [voice w]: yo", "v"⟩, ⟨"z", "v"⟩] ⟨[], []⟩).trace =
        [0, 0, 0, 0, 1, 2, 3, 1, 0, 0, 1, 2] ∧
      ¬ List.Chain' (· ≤ ·) ([0, 0, 0, 0, 1, 2, 3, 1, 0, 0, 1, 2] : List ℕ) ∧
      ([0, 0, 0, 0, 1, 2, 3, 1, 0, 0, 1, 2] : List ℕ).count 2 ≠ 1 := by
  refine ⟨by decide, ?_, by decide⟩
  simp [List.chain'_cons]

/-- Claim C1 (amended): the records that `tts_all` itself stores for the job
(Queued, the per-block updates, the final record) have non-decreasing `done`
values reaching `N = len(blocks)` exactly once, at the final store, whose
status is `"Complete"`; but the per-segment records stored by the pipeline
inside each block overwrite the same entry with segment-scale `done` values
and a per-block `"Complete"`, so the full stored sequence is neither
non-decreasing nor reaches `N` exactly once. -/
theorem C1_amended (env : Env) (now : ℚ) (cache : CacheState) (blocks : List Block)
    (hne : blocks ≠ []) :
    (blockTrace (tts_all env now blocks cache).trace).map (fun r => (r.done, r.status)) =
        ((0, "Queued") :: (List.range' 0 blocks.length).map
          (fun j => (j, blockStatus j blocks.length))) ++
          [(blocks.length, "Complete")] ∧
      List.Chain' (· ≤ ·)
        ((blockTrace (tts_all env now blocks cache).trace).map fun r => r.done) ∧
      ((blockTrace (tts_all env now blocks cache).trace).map fun r => r.done).count
          blocks.length = 1 ∧
      (∀ r ∈ blockTrace (tts_all env now blocks cache).trace,
        r.status = "Complete" → r.done = blocks.length) ∧
      (blockTrace (tts_all env now blocks cache).trace).getLast? =
        some ⟨blocks.length, blocks.length, "Complete"⟩ := by
  have hform : (blockTrace (tts_all env now blocks cache).trace).map
      (fun r => (r.done, r.status)) =
      ((0, "Queued") :: (List.range' 0 blocks.length).map
        (fun j => (j, blockStatus j blocks.length))) ++ [(blocks.length, "Complete")] := by
    simp only [tts_all, blockTrace_cons_block, blockTrace_append, blockTrace_cons_block,
      List.map_cons, List.map_append, ttsAux_blockTrace, List.cons_append]
    rfl
  have hdone : (blockTrace (tts_all env now blocks cache).trace).map (fun r => r.done) =
      0 :: List.range' 0 blocks.length ++ [blocks.length] := by
    have h2 := congrArg (List.map Prod.fst) hform
    simp only [List.map_map] at h2
    simpa [Function.comp_def] using h2
  obtain ⟨b0, bs0, rfl⟩ : ∃ b0 bs0, blocks = b0 :: bs0 := by
    cases blocks with
    | nil => exact absurd rfl hne
    | cons b0 bs0 => exact ⟨b0, bs0, rfl⟩
  refine ⟨hform, ?_, ?_, ?_, ?_⟩
  · rw [hdone, List.cons_append, List.chain'_cons']
    refine ⟨?_, by simpa using chain'_range'_concat (b0 :: bs0).length 0⟩
    intro x hx
    rw [List.length_cons, List.range'_succ] at hx
    simp at hx
    omega
  · have h0 : List.count (b0 :: bs0).length (List.range' 0 (b0 :: bs0).length) = 0 := by
      rw [List.count_eq_zero]
      intro hmem
      rw [List.mem_range'_1] at hmem
      omega
    rw [hdone, List.cons_append, List.count_cons, List.count_append, h0]
    simp
  · intro r hr hst
    have hmem : (r.done, r.status) ∈
        (blockTrace (tts_all env now (b0 :: bs0) cache).trace).map
          (fun r => (r.done, r.status)) :=
      List.mem_map_of_mem _ hr
    rw [hform] at hmem
    rcases List.mem_append.1 hmem with h1 | h1
    · rcases List.mem_cons.1 h1 with h2 | h2
      · exfalso
        have : r.status = "Queued" := congrArg Prod.snd h2
        rw [hst] at this
        exact absurd this.symm (by decide)
      · exfalso
        rcases List.mem_map.1 h2 with ⟨j, _, hj⟩
        have : blockStatus j (b0 :: bs0).length = r.status := congrArg Prod.snd hj
        rw [hst] at this
        exact blockStatus_ne_complete j (b0 :: bs0).length this
    · have : (r.done, r.status) = ((b0 :: bs0).length, "Complete") := by simpa using h1
      exact congrArg Prod.fst this
  · simp only [tts_all, blockTrace_cons_block, blockTrace_append]
    rw [show blockTrace ([] : List (Site × ProgressRecord)) = [] from rfl]
    exact List.getLast?_concat _

/-- Witness for C1 (amended) at the counterexample job. -/
theorem C1_amended_witness :
    List.Chain' (· ≤ ·)
        ((blockTrace (tts_all idEnv 0 [⟨"hi [voice w]: yo", "v"⟩, ⟨"z", "v"⟩]
          ⟨[], []⟩).trace).map fun r => r.done) ∧
      ((blockTrace (tts_all idEnv 0 [⟨"hi [voice w]: yo", "v"⟩, ⟨"z", "v"⟩]
          ⟨[], []⟩).trace).map fun r => r.done).count
        ([⟨"hi [voice w]: yo", "v"⟩, ⟨"z", "v"⟩] : List Block).length = 1 ∧
      (blockTrace (tts_all idEnv 0 [⟨"hi [voice w]: yo", "v"⟩, ⟨"z", "v"⟩]
          ⟨[], []⟩).trace).getLast? =
        some ⟨([⟨"hi [voice w]: yo", "v"⟩, ⟨"z", "v"⟩] : List Block).length,
          ([⟨"hi [voice w]: yo", "v"⟩, ⟨"z", "v"⟩] : List Block).length, "Complete"⟩ :=
  ⟨(C1_amended idEnv 0 ⟨[], []⟩ [⟨"hi [voice w]: yo", "v"⟩, ⟨"z", "v"⟩] (by decide)).2.1,
    (C1_amended idEnv 0 ⟨[], []⟩ [⟨"hi [voice w]: yo", "v"⟩, ⟨"z", "v"⟩] (by decide)).2.2.1,
    (C1_amended idEnv 0 ⟨[], []⟩ [⟨"hi [voice w]: yo", "v"⟩, ⟨"z", "v"⟩] (by decide)).2.2.2.2⟩

/-! ## C3: the eviction policy of `db_cleanup` -/

/-- The eviction pass as a relation on the visited (sorted) rows: a row is
kept when it is young and the running total is within the cap; otherwise its
index row is deleted, and the running total is decremented exactly when the
backing file existed and its removal succeeded (the file-delete outcome
`fs.fileExists && fs.removeOk`). -/
inductive EvictsTo (fs : FsEnv) (now maxAgeSeconds maxTotalBytes : ℚ) :
    ℤ → List CacheRow → List String → List String → Prop
  | nil (total : ℤ) : EvictsTo fs now maxAgeSeconds maxTotalBytes total [] [] []
  | keep {total : ℤ} {r : CacheRow} {rest : List CacheRow} {ds ps : List String} :
      ¬ ((now - r.mtime) > maxAgeSeconds ∨ (total : ℚ) > maxTotalBytes) →
      EvictsTo fs now maxAgeSeconds maxTotalBytes total rest ds ps →
      EvictsTo fs now maxAgeSeconds maxTotalBytes total (r :: rest) ds ps
  | delRemoved {total : ℤ} {r : CacheRow} {rest : List CacheRow} {ds ps : List String} :
      ((now - r.mtime) > maxAgeSeconds ∨ (total : ℚ) > maxTotalBytes) →
      (fs.fileExists r.path && fs.removeOk r.path) = true →
      EvictsTo fs now maxAgeSeconds maxTotalBytes (total - r.size) rest ds ps →
      EvictsTo fs now maxAgeSeconds maxTotalBytes total (r :: rest)
        (r.hash :: ds) (r.path :: ps)
  | delRowOnly {total : ℤ} {r : CacheRow} {rest : List CacheRow} {ds ps : List String} :
      ((now - r.mtime) > maxAgeSeconds ∨ (total : ℚ) > maxTotalBytes) →
      (fs.fileExists r.path && fs.removeOk r.path) = false →
      EvictsTo fs now maxAgeSeconds maxTotalBytes total rest ds ps →
      EvictsTo fs now maxAgeSeconds maxTotalBytes total (r :: rest) (r.hash :: ds) ps

/-- Inserting into the sorted prefix is a permutation of consing. -/
theorem perm_insertByMtime (r : CacheRow) :
    ∀ l : List CacheRow, List.Perm (insertByMtime r l) (r :: l) := by
  intro l
  induction l with
  | nil => exact List.Perm.refl _
  | cons x xs ih =>
    by_cases h : x.mtime < r.mtime
    · simp only [insertByMtime, if_pos h]
      exact (ih.cons x).trans (List.Perm.swap r x xs)
    · simp only [insertByMtime, if_neg h]
      exact List.Perm.refl _

/-- The cleanup pass visits a permutation of the index rows. -/
theorem perm_sortByMtime (rows : List CacheRow) :
    List.Perm (sortByMtime rows) rows := by
  induction rows with
  | nil => exact List.Perm.refl _
  | cons r rest ih =>
    exact (perm_insertByMtime r (sortByMtime rest)).trans (ih.cons r)

/-- Insertion preserves sortedness by `mtime`. -/
theorem pairwise_insertByMtime (r : CacheRow) :
    ∀ l : List CacheRow,
      List.Pairwise (fun a b : CacheRow => a.mtime ≤ b.mtime) l →
      List.Pairwise (fun a b : CacheRow => a.mtime ≤ b.mtime) (insertByMtime r l) := by
  intro l
  induction l with
  | nil => intro _; simp [insertByMtime]
  | cons x xs ih =>
    intro h
    rw [List.pairwise_cons] at h
    by_cases hx : x.mtime < r.mtime
    · simp only [insertByMtime, if_pos hx]
      rw [List.pairwise_cons]
      refine ⟨?_, ih h.2⟩
      intro y hy
      have hy2 : y ∈ r :: xs := (perm_insertByMtime r xs).subset hy
      rcases List.mem_cons.1 hy2 with h2 | h2
      · rw [h2]; exact le_of_lt hx
      · exact h.1 y h2
    · simp only [insertByMtime, if_neg hx]
      rw [List.pairwise_cons]
      refine ⟨?_, List.pairwise_cons.2 h⟩
      intro y hy
      rcases List.mem_cons.1 hy with h2 | h2
      · rw [h2]; exact le_of_not_lt hx
      · exact le_trans (le_of_not_lt hx) (h.1 y h2)

/-- The visiting order is oldest-access-first. -/
theorem sorted_sortByMtime (rows : List CacheRow) :
    List.Pairwise (fun a b : CacheRow => a.mtime ≤ b.mtime) (sortByMtime rows) := by
  induction rows with
  | nil => simp [sortByMtime]
  | cons r rest ih => exact pairwise_insertByMtime r (sortByMtime rest) ih

/-- The loop of `db_cleanup` implements the `EvictsTo` relation. -/
theorem cleanupAux_evictsTo (fs : FsEnv) (now maxAgeHours maxTotalMb : ℚ) :
    ∀ (rows : List CacheRow) (total : ℤ),
      EvictsTo fs now (maxAgeHours * 3600) (maxTotalMb * 1000000) total rows
        (cleanupAux fs now maxAgeHours maxTotalMb total rows).deletedRows
        (cleanupAux fs now maxAgeHours maxTotalMb total rows).removedPaths := by
  intro rows
  induction rows with
  | nil => intro total; exact EvictsTo.nil total
  | cons r rest ih =>
    intro total
    by_cases hcond : (now - r.mtime) > maxAgeHours * 3600 ∨
        (total : ℚ) > maxTotalMb * 1000000
    · cases hb : (fs.fileExists r.path && fs.removeOk r.path) with
      | true =>
        simp only [cleanupAux, if_pos hcond, if_pos hb]
        exact EvictsTo.delRemoved hcond hb (ih (total - r.size))
      | false =>
        have hb2 : ¬ ((fs.fileExists r.path && fs.removeOk r.path) = true) := by
          rw [hb]; exact Bool.false_ne_true
        simp only [cleanupAux, if_pos hcond, if_neg hb2]
        exact EvictsTo.delRowOnly hcond hb (ih total)
    · simp only [cleanupAux, if_neg hcond]
      exact EvictsTo.keep hcond (ih total)

/-- A row strictly older than the age bound always loses its index row,
whatever the running total does. -/
theorem cleanupAux_age_deleted (fs : FsEnv) (now maxAgeHours maxTotalMb : ℚ) :
    ∀ (rows : List CacheRow) (total : ℤ) (r : CacheRow), r ∈ rows →
      (now - r.mtime) > maxAgeHours * 3600 →
      r.hash ∈ (cleanupAux fs now maxAgeHours maxTotalMb total rows).deletedRows := by
  intro rows
  induction rows with
  | nil => intro total r hr _; exact absurd hr (List.not_mem_nil r)
  | cons x rest ih =>
    intro total r hr hage
    rcases List.mem_cons.1 hr with h2 | h2
    · subst h2
      have hcond : (now - r.mtime) > maxAgeHours * 3600 ∨
          (total : ℚ) > maxTotalMb * 1000000 := Or.inl hage
      cases hb : (fs.fileExists r.path && fs.removeOk r.path) with
      | true =>
        simp only [cleanupAux, if_pos hcond, if_pos hb]
        exact List.mem_cons_self _ _
      | false =>
        have hb2 : ¬ ((fs.fileExists r.path && fs.removeOk r.path) = true) := by
          rw [hb]; exact Bool.false_ne_true
        simp only [cleanupAux, if_pos hcond, if_neg hb2]
        exact List.mem_cons_self _ _
    · by_cases hcond : (now - x.mtime) > maxAgeHours * 3600 ∨
          (total : ℚ) > maxTotalMb * 1000000
      · cases hb : (fs.fileExists x.path && fs.removeOk x.path) with
        | true =>
          simp only [cleanupAux, if_pos hcond, if_pos hb]
          exact List.mem_cons_of_mem _ (ih (total - x.size) r h2 hage)
        | false =>
          have hb2 : ¬ ((fs.fileExists x.path && fs.removeOk x.path) = true) := by
            rw [hb]; exact Bool.false_ne_true
          simp only [cleanupAux, if_pos hcond, if_neg hb2]
          exact List.mem_cons_of_mem _ (ih total r h2 hage)
      · simp only [cleanupAux, if_neg hcond]
        exact ih total r h2 hage

/-- Deleted rows are reported in visiting order (a sublist of the visited
hashes). -/
theorem cleanupAux_deleted_sublist (fs : FsEnv) (now maxAgeHours maxTotalMb : ℚ) :
    ∀ (rows : List CacheRow) (total : ℤ),
      List.Sublist (cleanupAux fs now maxAgeHours maxTotalMb total rows).deletedRows
        (rows.map fun r => r.hash) := by
  intro rows
  induction rows with
  | nil => intro total; exact List.Sublist.refl _
  | cons r rest ih =>
    intro total
    by_cases hcond : (now - r.mtime) > maxAgeHours * 3600 ∨
        (total : ℚ) > maxTotalMb * 1000000
    · cases hb : (fs.fileExists r.path && fs.removeOk r.path) with
      | true =>
        simp only [cleanupAux, if_pos hcond, if_pos hb, List.map_cons]
        exact (ih (total - r.size)).cons₂ r.hash
      | false =>
        have hb2 : ¬ ((fs.fileExists r.path && fs.removeOk r.path) = true) := by
          rw [hb]; exact Bool.false_ne_true
        simp only [cleanupAux, if_pos hcond, if_neg hb2, List.map_cons]
        exact (ih total).cons₂ r.hash
    · simp only [cleanupAux, if_neg hcond, List.map_cons]
      exact (ih total).cons r.hash

/-- Filesystem of the C3 counterexample: only `b.mp3` still exists on disk;
removals succeed. -/
def fsC3 : FsEnv := ⟨fun p => p == "b.mp3", fun _ => true⟩

/-- Index of the C3 counterexample: row `a` is old (age 7200 s) with a
missing 100 MB file; row `b` is young (age 10 s), 30 MB, file present. -/
def rowsC3 : List CacheRow :=
  [⟨"a", "va", "ta", "a.mp3", 100000000, 2800⟩,
    ⟨"b", "vb", "tb", "b.mp3", 30000000, 9990⟩]

/-- Claim C3 counterexample: with `now = 10000`, `max_age_hours = 1`,
`max_total_mb = 50`, `db_cleanup` deletes both rows — including the young
row `b` — although under the claimed policy (running total decremented by
every deleted entry) the running total at `b` is `130 MB − 100 MB = 30 MB ≤
50 MB`, so `b` should survive: the code decrements the running total only
when the backing file was actually removed, and `a`'s file is missing. -/
theorem C3_counterexample :
    (db_cleanup fsC3 10000 1 50 rowsC3).deletedRows = ["a", "b"] ∧
      evictSpec 10000 3600 50000000 rowsC3 = ["a"] ∧
      ¬ ((10000 : ℚ) - 9990 > 3600) ∧
      ¬ (((130000000 - 100000000 : ℤ) : ℚ) > 50000000) := by
  refine ⟨?_, ?_, by norm_num, by norm_num⟩
  · norm_num [db_cleanup, cleanupAux, sortByMtime, insertByMtime, fsC3, rowsC3]
    rw [if_neg (show ¬ ("a.mp3" : String) = "b.mp3" from by decide)]
  · norm_num [evictSpec, evictSpecAux, sortByMtime, insertByMtime, rowsC3]

/-- Claim C3 (amended): `db_cleanup` visits the index rows sorted
oldest-access-first (a sorted permutation), deletes the index row of exactly
the entries prescribed by the `EvictsTo` relation — age above the bound or
running total still above the cap, where the running total is decremented
only by entries whose backing file existed and was removed — reports
deletions in visiting order, and always deletes rows older than the age
bound.  An entry younger than the bound can thus be deleted when the running
total, so computed, still exceeds the cap, even if the claimed per-deletion
total would not. -/
theorem C3_amended (fs : FsEnv) (now maxAgeHours maxTotalMb : ℚ)
    (rows : List CacheRow) :
    List.Perm (sortByMtime rows) rows ∧
      List.Pairwise (fun a b : CacheRow => a.mtime ≤ b.mtime) (sortByMtime rows) ∧
      EvictsTo fs now (maxAgeHours * 3600) (maxTotalMb * 1000000)
        ((rows.map fun r => (r.size : ℤ)).sum) (sortByMtime rows)
        (db_cleanup fs now maxAgeHours maxTotalMb rows).deletedRows
        (db_cleanup fs now maxAgeHours maxTotalMb rows).removedPaths ∧
      List.Sublist (db_cleanup fs now maxAgeHours maxTotalMb rows).deletedRows
        ((sortByMtime rows).map fun r => r.hash) ∧
      (∀ r ∈ sortByMtime rows, (now - r.mtime) > maxAgeHours * 3600 →
        r.hash ∈ (db_cleanup fs now maxAgeHours maxTotalMb rows).deletedRows) :=
  ⟨perm_sortByMtime rows, sorted_sortByMtime rows,
    cleanupAux_evictsTo fs now maxAgeHours maxTotalMb (sortByMtime rows) _,
    cleanupAux_deleted_sublist fs now maxAgeHours maxTotalMb (sortByMtime rows) _,
    fun r hr hage =>
      cleanupAux_age_deleted fs now maxAgeHours maxTotalMb (sortByMtime rows) _ r hr hage⟩

/-- Witness for C3 (amended) at the counterexample instance: row `a` is old
there, and its row is indeed deleted. -/
theorem C3_amended_witness :
    (⟨"a", "va", "ta", "a.mp3", 100000000, 2800⟩ : CacheRow).hash ∈
      (db_cleanup fsC3 10000 1 50 rowsC3).deletedRows :=
  (C3_amended fsC3 10000 1 50 rowsC3).2.2.2.2
    ⟨"a", "va", "ta", "a.mp3", 100000000, 2800⟩
    (by norm_num [sortByMtime, insertByMtime, rowsC3])
    (by norm_num)

end TTS
